import Mathlib

/-!
Shallow embedding of the retrieval-cache-extraction-matching pipeline of the
holochain-mcp server (source: build/index.js).  JS strings are modelled as
`List Char` (faithful for the ASCII data the program handles); JS `Map`s are
modelled as association lists with JS `Map` insertion-order semantics;
timestamps are `Nat` milliseconds; the network and the cheerio HTML selector
engine are external collaborators, so fetch outcomes and per-selector element
texts are inputs to the modelled functions.  JS `Date.now()` subtraction only
occurs in positions where truncated `Nat` subtraction agrees with JS number
arithmetic (timestamps are non-negative and the comparisons clamp the same
way).
-/

deriving instance DecidableEq for Except

namespace HolochainMcp

/-- String literal to the character-list representation used by the model. -/
def str (s : String) : List Char := s.data

/-- Prefix test on character lists (used to model JS `String.startsWith` and
as the building block of substring search). -/
def isPrefixL : List Char → List Char → Bool
  | [], _ => true
  | _ :: _, [] => false
  | p :: ps, c :: cs => p == c && isPrefixL ps cs

/-- JS `String.prototype.includes`: case-sensitive substring containment. -/
def containsSub (pat : List Char) : List Char → Bool
  | [] => isPrefixL pat []
  | c :: rest => isPrefixL pat (c :: rest) || containsSub pat (rest)

/-- Specification-style substring containment: `p` occurs inside `s`. -/
def SubStr (p s : List Char) : Prop := ∃ l r, s = l ++ p ++ r

/-- JS `\s` / `trim` whitespace class (ASCII fragment). -/
def isWs (c : Char) : Bool := c == ' ' || c == '\t' || c == '\n' || c == '\r'

/-- JS `String.prototype.trim`. -/
def trimL (s : List Char) : List Char :=
  ((s.dropWhile isWs).reverse.dropWhile isWs).reverse

/-- JS `String.prototype.toLowerCase` (ASCII fragment, via `Char.toLower`). -/
def lowerStr (s : List Char) : List Char := s.map Char.toLower

/-- JS falsy-string choice `a || b`. -/
def jsOr (a b : List Char) : List Char := if a = [] then b else a

/-- `.replace(/\s+/g, " ")`: collapse every whitespace run to one space.
The `Bool` argument records whether the previous character was whitespace. -/
def collapseWsGo : Bool → List Char → List Char
  | _, [] => []
  | prevWs, c :: rest =>
    if isWs c then
      if prevWs then collapseWsGo true rest else ' ' :: collapseWsGo true rest
    else c :: collapseWsGo false rest

/-- `.replace(/\s+/g, " ")` as used throughout the extractor cleanups. -/
def collapseWs (s : List Char) : List Char := collapseWsGo false s

-- ==== Content cache (pageCache, CACHE_TTL, fetchPage cache interaction) ====

/-- One `pageCache` entry: `{ content, timestamp }`. -/
structure CacheEntry where
  content : List Char
  timestamp : Nat
deriving DecidableEq

/-- The `pageCache` JS `Map`, as an insertion-ordered association list. -/
abbrev Cache := List (List Char × CacheEntry)

/-- `CACHE_TTL = 10 * 60 * 1000` (10 minutes). -/
def CACHE_TTL : Nat := 10 * 60 * 1000

/-- The quality gate shared by the cache read (`isGoodCache`) and the cache
write (`shouldCache`): trimmed length above 100 and none of the literal
markers "404", "Not Found", "Error" present. -/
def isGoodContent (c : List Char) : Bool :=
  decide (100 < (trimL c).length) && !containsSub (str "404") c &&
    !containsSub (str "Not Found") c && !containsSub (str "Error") c

/-- JS `Map.prototype.get` on an association list. -/
def mapGet {α : Type} (m : List (List Char × α)) (k : List Char) : Option α :=
  (m.find? (fun p => p.1 == k)).map (fun p => p.2)

/-- JS `Map.prototype.set`: update in place (keeping insertion order) when the
key exists, append otherwise. -/
def mapSet {α : Type} (m : List (List Char × α)) (k : List Char) (v : α) :
    List (List Char × α) :=
  if m.any (fun p => p.1 == k) then
    m.map (fun p => if p.1 == k then (k, v) else p)
  else m ++ [(k, v)]

/-- JS `Map.prototype.delete`. -/
def mapDelete {α : Type} (m : List (List Char × α)) (k : List Char) :
    List (List Char × α) :=
  m.filter (fun p => !(p.1 == k))

/-- The cache read performed at the top of `fetchPage`: a fresh entry is
re-validated against the quality gate; a failing hit is deleted and treated
as a miss; a stale entry is treated as a miss without deletion. -/
def cacheGetStep (url : List Char) (now : Nat) (cache : Cache) :
    Option (List Char) × Cache :=
  match mapGet cache url with
  | some e =>
    if now - e.timestamp < CACHE_TTL then
      if isGoodContent e.content then (some e.content, cache)
      else (none, mapDelete cache url)
    else (none, cache)
  | none => (none, cache)

/-- `fetchAndCache`: store the content when it passes the quality gate (then
sweep stale entries once the store exceeds 100 entries), otherwise delete any
existing entry for the url; either way return the content unchanged. -/
def fetchAndCache (url content : List Char) (now : Nat) (cache : Cache) :
    List Char × Cache :=
  if isGoodContent content then
    let c1 := mapSet cache url ⟨content, now⟩
    let c2 :=
      if 100 < c1.length then
        c1.filter (fun p => !decide (p.2.timestamp < now - CACHE_TTL))
      else c1
    (content, c2)
  else (content, mapDelete cache url)

/-- Cache states reachable from the empty `pageCache` through the two
operations that mutate it. -/
inductive ReachableCache : Cache → Prop where
  | init : ReachableCache []
  | put (url C : List Char) (now : Nat) {c : Cache} :
      ReachableCache c → ReachableCache (fetchAndCache url C now c).2
  | read (url : List Char) (now : Nat) {c : Cache} :
      ReachableCache c → ReachableCache (cacheGetStep url now c).2

-- ==== Page fetcher, static (docs.rs) path ====

/-- The single error kind surfaced by `fetchPage`. -/
structure FetchErr where
  message : List Char
deriving DecidableEq

/-- Errors flowing through the static pipeline before the final
`Effect.mapError`: the `FetchError` produced by the first `Effect.mapError`,
or the `TimeoutException` produced by `Effect.timeout`. -/
inductive StaticErr where
  | fetchFailed (e : FetchErr)
  | timeoutException
deriving DecidableEq

/-- Outcome of the underlying HTTP request, an external input. -/
inductive HttpOutcome where
  | success (body : List Char)
  | transportFailure
  | timedOut

/-- The static path up to and including `Effect.timeout`: a transport or
non-success failure has already been mapped to
`FetchError "Failed to fetch: <url>"`; elapsing the timeout raises a
`TimeoutException`. -/
def staticPipeline (url : List Char) (o : HttpOutcome) (now : Nat) (c : Cache) :
    Except StaticErr (List Char) × Cache :=
  match o with
  | .success body =>
    let r := fetchAndCache url body now c
    (.ok r.1, r.2)
  | .transportFailure => (.error (.fetchFailed ⟨str "Failed to fetch: " ++ url⟩), c)
  | .timedOut => (.error .timeoutException, c)

/-- The final `Effect.mapError` of the static path: every error of the
pipeline, whatever its cause, is replaced by
`FetchError "Timeout fetching: <url>"`. -/
def staticFetchPath (url : List Char) (o : HttpOutcome) (now : Nat) (c : Cache) :
    Except FetchErr (List Char) × Cache :=
  match staticPipeline url o now c with
  | (.ok content, c2) => (.ok content, c2)
  | (.error _, c2) => (.error ⟨str "Timeout fetching: " ++ url⟩, c2)

/-- `fetchPage` on the static path: consult the cache, then fetch. -/
def fetchPageStatic (url : List Char) (o : HttpOutcome) (now : Nat)
    (cache : Cache) : Except FetchErr (List Char) × Cache :=
  match cacheGetStep url now cache with
  | (some content, c) => (.ok content, c)
  | (none, c) => staticFetchPath url o now c

-- ==== Search relevance scorer (parseSearchResults) ====

/-- A `SearchResult` as produced by `parseSearchResults`. -/
structure SearchResult where
  title : List Char
  url : List Char
  snippet : List Char
  source : List Char
deriving DecidableEq

/-- `String.prototype.indexOf`, as position of the first occurrence. -/
def indexOfSub (pat : List Char) : List Char → Option Nat
  | [] => if isPrefixL pat [] then some 0 else none
  | c :: rest =>
    if isPrefixL pat (c :: rest) then some 0
    else (indexOfSub pat rest).map (fun i => i + 1)

/-- JS `substring(start, stop)` for already-clamped `start ≤ stop`. -/
def substrL (s : List Char) (start stop : Nat) : List Char :=
  (s.take stop).drop start

/-- Case-insensitive prefix test (regex `i` flag, ASCII case folding). -/
def ciPrefix : List Char → List Char → Bool
  | [], _ => true
  | _ :: _, [] => false
  | p :: ps, c :: cs => p.toLower == c.toLower && ciPrefix ps cs

/-- Case-insensitive substring containment (companion of `ciPrefix`). -/
def ciContains (pat : List Char) : List Char → Bool
  | [] => ciPrefix pat []
  | c :: rest => ciPrefix pat (c :: rest) || ciContains pat rest

/-- A term free of JS regex syntax characters: for such a term
`new RegExp(term, "gi")` compiles without throwing and is a literal
case-insensitive global matcher.  Terms containing one of these characters
are interpreted as regex syntax by the program (some even make the `RegExp`
constructor throw, surfacing as a `ParseError` through `Effect.try`) and lie
outside this embedding's scope; the theorems about the scorer carry a
`regexSafe` hypothesis accordingly. -/
def regexSafe (t : List Char) : Bool :=
  t.all (fun c => !((str "\\^$.*+?()[]\x7b\x7d|").contains c))

/-- Count of non-overlapping, leftmost-first case-insensitive occurrences;
fuel-driven so the kernel can evaluate it (`fuel` bounds the scan steps). -/
def countOccCIGo : Nat → List Char → List Char → Nat
  | 0, _, _ => 0
  | fuel + 1, pat, s =>
    if ciPrefix pat s then 1 + countOccCIGo fuel pat (s.drop pat.length)
    else
      match s with
      | [] => 0
      | _ :: rest => countOccCIGo fuel pat rest

/-- `(content.match(new RegExp(term, "gi")) || []).length`: the number of
non-overlapping case-insensitive occurrences of the term (the `i` flag makes
the match case-insensitive even though the caller already lowercased the
content).  Exact for `regexSafe` terms; a global regex built from the empty
term matches once per position. -/
def countOccCI (pat s : List Char) : Nat :=
  if pat = [] then s.length + 1 else countOccCIGo s.length pat s

/-- JS regex `.` (without the `s` flag) excludes line terminators. -/
def isLineTerm (c : Char) : Bool := c == '\n' || c == '\r'

/-- For the lazy gap of `/PRE.*?SUF/`: scan non-terminator characters until
`suf` matches, returning the remainder after `suf`. -/
def findLazyEnd : Nat → List Char → List Char → Option (List Char)
  | 0, _, _ => none
  | fuel + 1, suf, s =>
    if ciPrefix suf s then some (s.drop suf.length)
    else
      match s with
      | [] => none
      | c :: rest => if isLineTerm c then none else findLazyEnd fuel suf rest

/-- Global replacement of `/PRE.*?SUF/gi` by the empty string. -/
def removeBetweenGo : Nat → List Char → List Char → List Char → List Char
  | 0, _, _, s => s
  | fuel + 1, pre, suf, s =>
    match s with
    | [] => []
    | c :: rest =>
      if ciPrefix pre s then
        match findLazyEnd s.length suf (s.drop pre.length) with
        | some rem => removeBetweenGo fuel pre suf rem
        | none => c :: removeBetweenGo fuel pre suf rest
      else c :: removeBetweenGo fuel pre suf rest

/-- `.replace(/PRE.*?SUF/gi, "")`. -/
def removeBetween (pre suf s : List Char) : List Char :=
  removeBetweenGo s.length pre suf s

/-- Matcher for `/Edge_Logo_\d+x\d+/gi` at the current position, returning
the remainder after the match. -/
def edgeLogoMatchAt (s : List Char) : Option (List Char) :=
  if ciPrefix (str "Edge_Logo_") s then
    let rest := s.drop (str "Edge_Logo_").length
    let d1 := rest.takeWhile Char.isDigit
    let r1 := rest.drop d1.length
    if d1 ≠ [] ∧ ciPrefix (str "x") r1 then
      let r2 := r1.drop 1
      let d2 := r2.takeWhile Char.isDigit
      if d2 ≠ [] then some (r2.drop d2.length) else none
    else none
  else none

/-- Global removal driven by a position matcher (regex global replace). -/
def removeMatchesGo (m : List Char → Option (List Char)) :
    Nat → List Char → List Char
  | 0, s => s
  | fuel + 1, s =>
    match s with
    | [] => []
    | c :: rest =>
      match m s with
      | some rem => removeMatchesGo m fuel rem
      | none => c :: removeMatchesGo m fuel rest

/-- `.replace(/Edge_Logo_\d+x\d+/gi, "")`. -/
def removeEdgeLogo (s : List Char) : List Char :=
  removeMatchesGo edgeLogoMatchAt s.length s

/-- Matcher for `/Navigation|Menu|Header|Footer/gi` at the current position. -/
def navWordMatchAt (s : List Char) : Option (List Char) :=
  match [str "Navigation", str "Menu", str "Header", str "Footer"].find?
      (fun w => ciPrefix w s) with
  | some w => some (s.drop w.length)
  | none => none

/-- `.replace(/Navigation|Menu|Header|Footer/gi, "")`. -/
def removeNavWords (s : List Char) : List Char :=
  removeMatchesGo navWordMatchAt s.length s

/-- The snippet cleanup shared by both snippet extractions: strip the
image/video caption artifacts, then collapse whitespace and trim. -/
def cleanSnippetBase (s : List Char) : List Char :=
  removeEdgeLogo (removeBetween (str "YouTube play video icon") (str "logo")
    (removeBetween (str "Circle with shading containing") (str "statistic") s))

/-- Source tag derived from the url. -/
def sourceTag (url : List Char) : List Char :=
  if containsSub (str "developer.holochain.org") url then
    str "developer.holochain.org"
  else if containsSub (str "/hdk/") url then str "docs.rs/hdk"
  else str "docs.rs/hdi"

/-- The scorer's view of a page: the `$("title")`, first `$("h1")` and
`$("body")` texts, plus the text of each of the nine main-content selectors
in the order the code tries them (empty when the selector matches nothing). -/
structure SearchPage where
  titleTag : List Char
  h1 : List Char
  body : List Char
  selTexts : List (List Char)

/-- The retry loop of the snippet extraction: against each main-content
region text in turn, re-extract a window around the first matched term,
clean it (including the Navigation/Menu/Header/Footer strip), and keep the
candidate if it is strictly longer, stopping at the first success. -/
def snippetRetryLoop (firstTerm : List Char) :
    List (List Char) → List Char → List Char
  | [], snippet => snippet
  | t :: rest, snippet =>
    let mc := trimL t
    if mc ≠ [] ∧ snippet.length < mc.length then
      match indexOfSub firstTerm (lowerStr mc) with
      | some mi =>
        let c := trimL (substrL mc (mi - 100) (min mc.length (mi + 200)))
        let clean := trimL (collapseWs (removeNavWords (cleanSnippetBase c)))
        if snippet.length < clean.length then clean
        else snippetRetryLoop firstTerm rest snippet
      | none => snippetRetryLoop firstTerm rest snippet
    else snippetRetryLoop firstTerm rest snippet

/-- `parseSearchResults(html, url, searchTerms)`: relevance is the summed
case-insensitive occurrence count of the terms (each compiled as
`new RegExp(term, "gi")` — exact here for `regexSafe` terms) in the
lowercased body text; zero relevance or no literally-contained term
(`content.includes(term)` is case-sensitive) yields an absence; otherwise a
snippet window of 100 characters before to 200 after the first matched term
is cut from the body text, cleaned, and re-extracted from a main-content
region when too short or still carrying the "Circle with shading" marker. -/
def parseSearchResults (p : SearchPage) (url : List Char)
    (terms : List (List Char)) : Option SearchResult :=
  let title := jsOr p.titleTag (jsOr p.h1 url)
  let content := lowerStr p.body
  let relevanceScore := terms.foldl (fun sc t => sc + countOccCI t content) 0
  if relevanceScore = 0 then none
  else
    match terms.find? (fun t => containsSub t content) with
    | none => none
    | some firstTerm =>
      let idx : Int :=
        match indexOfSub firstTerm (lowerStr p.body) with
        | some i => (i : Int)
        | none => -1
      let start : Nat := (max 0 (idx - 100)).toNat
      let stop : Nat := (min (p.body.length : Int) (idx + 200)).toNat
      let snippet0 := trimL (substrL p.body start stop)
      let snippet1 := trimL (collapseWs (cleanSnippetBase snippet0))
      let snippet :=
        if snippet1.length < 50 ∨
            containsSub (str "Circle with shading") snippet1 = true then
          snippetRetryLoop firstTerm p.selTexts snippet1
        else snippet1
      some ⟨trimL title, url, snippet, sourceTag url⟩

-- ==== Multi-page search (searchDeveloperDocs / searchRustDocs / handler) ====

/-- Typed failures a single page scan can raise before `Effect.catchAll`. -/
inductive SearchFailure where
  | fetchError
  | parseError
deriving DecidableEq

/-- Descending-snippet-length ordering used by
`Array.sortBy(Order.mapInput(Order.number, r => -r.snippet.length))`. -/
def snippetDescRel (a b : SearchResult) : Prop := b.snippet.length ≤ a.snippet.length

instance : DecidableRel snippetDescRel := fun a b =>
  inferInstanceAs (Decidable (b.snippet.length ≤ a.snippet.length))

/-- The per-scope ranking: stable sort by descending snippet length, then
`Array.take(5)` (`Array.sortBy` is a stable sort; modelled by insertion
sort, which is stable). -/
def rankResults (rs : List SearchResult) : List SearchResult :=
  (List.insertionSort snippetDescRel rs).take 5

/-- `Effect.map(Option.toArray)` applied to one page's scan outcome. -/
def pageParsed (o : Except SearchFailure (Option SearchResult)) :
    Except SearchFailure (List SearchResult) :=
  o.map Option.toList

/-- `Effect.catchAll(() => Effect.succeed([]))` applied to one page. -/
def pageCaught (o : Except SearchFailure (Option SearchResult)) :
    Except SearchFailure (List SearchResult) :=
  match pageParsed o with
  | .ok l => .ok l
  | .error _ => .ok []

/-- `Effect.all`: fail on the first failing element, otherwise collect. -/
def collectAll :
    List (Except SearchFailure (List SearchResult)) →
      Except SearchFailure (List (List SearchResult))
  | [] => .ok []
  | e :: es =>
    match e with
    | .error err => .error err
    | .ok a =>
      match collectAll es with
      | .error err => .error err
      | .ok rest => .ok (a :: rest)

/-- One scope's search (`searchDeveloperDocs` / `searchRustDocs`): scan the
fixed page list (given here by the per-page outcomes), swallow per-page
failures, flatten, rank, take 5. -/
def searchScope (outs : List (Except SearchFailure (Option SearchResult))) :
    Except SearchFailure (List SearchResult) :=
  (collectAll (outs.map pageCaught)).map (fun ls => rankResults ls.flatten)

/-- The `source` argument of the `search_holochain_docs` tool. -/
inductive SearchSource where
  | all
  | developer
  | hdk
  | hdi
deriving DecidableEq

/-- The `search_holochain_docs` handler: sequentially accumulate the per-scope
result lists selected by `source` (concatenation, no re-ranking). -/
def searchHolochainDocs (source : SearchSource)
    (dev hdk hdi : List (Except SearchFailure (Option SearchResult))) :
    Except SearchFailure (List SearchResult) :=
  match (if source = .all ∨ source = .developer then searchScope dev else .ok []) with
  | .error e => .error e
  | .ok r1 =>
    match (if source = .all ∨ source = .hdk then searchScope hdk else .ok []) with
    | .error e => .error e
    | .ok r2 =>
      match (if source = .all ∨ source = .hdi then searchScope hdi else .ok []) with
      | .error e => .error e
      | .ok r3 => .ok (r1 ++ r2 ++ r3)

-- ==== HDK function index (parseHdkIndex, discovery, fallback) ====

/-- One `{name, url}` entry of the function index. -/
structure HdkFunction where
  name : List Char
  url : List Char
deriving DecidableEq

/-- An anchor element as delivered by the selector scans: its `href`
attribute and its trimmed text. -/
structure Anchor where
  href : List Char
  text : List Char
deriving DecidableEq

/-- Membership of a name in the `seenFunctions` set. -/
def memStr (n : List Char) (l : List (List Char)) : Bool :=
  l.any (fun m => m == n)

/-- Dedup state: the `seenFunctions` set and the `functions` list. -/
abbrev DedupSt := List (List Char) × List HdkFunction

/-- Add a `{name, url}` pair unless the name was already seen. -/
def pushIfNew (st : DedupSt) (name url : List Char) : DedupSt :=
  if memStr name st.1 then st else (name :: st.1, st.2 ++ [⟨name, url⟩])

/-- URL construction for an anchor-derived function link. -/
def mkFnUrl (base href : List Char) : List Char :=
  if isPrefixL (str "http") href then href
  else if isPrefixL (str "/") href then str "https://docs.rs" ++ href
  else base ++ str "/" ++ href

/-- Leftmost match of `/fn\.([^.\/]+)\.html/` against `href`, returning the
captured function name ("fn." then a nonempty run without `.` or `/`,
immediately followed by ".html"; the greedy class cannot backtrack because
".html" starts with a character the class excludes). -/
def hdkFnMatchAt (s : List Char) : Option (List Char) :=
  if isPrefixL (str "fn.") s then
    let rest := s.drop 3
    let run := rest.takeWhile (fun c => !(c == '.') && !(c == '/'))
    if run ≠ [] ∧ isPrefixL (str ".html") (rest.drop run.length) then some run
    else none
  else none

/-- Scan every position for the regex above (JS `String.prototype.match`
returns the first match). -/
def hdkFnMatch : List Char → Option (List Char)
  | [] => none
  | c :: rest =>
    match hdkFnMatchAt (c :: rest) with
    | some r => some r
    | none => hdkFnMatch rest

/-- Strategy 1 of `parseHdkIndex`, one anchor: harvest a function link whose
href contains "fn." and matches the function-file pattern. -/
def anchorStep (base : List Char) (st : DedupSt) (a : Anchor) : DedupSt :=
  if containsSub (str "fn.") a.href then
    match hdkFnMatch a.href with
    | some name => pushIfNew st name (mkFnUrl base a.href)
    | none => st
  else st

/-- The curated table of well-known module functions unioned in at the end of
`parseHdkIndex`. -/
def curatedTable : List (List Char × List (List Char)) := [
  (str "entry", [str "create_entry", str "get", str "update_entry", str "delete_entry"]),
  (str "link", [str "create_link", str "get_links", str "delete_link", str "get_link_details"]),
  (str "agent", [str "agent_info"]),
  (str "chain", [str "get_chain_head", str "query"]),
  (str "p2p", [str "call", str "call_remote", str "emit_signal"]),
  (str "capability", [str "create_cap_grant", str "create_cap_claim"]),
  (str "hash", [str "hash"]),
  (str "info", [str "dna_info", str "zome_info", str "call_info"])]

/-- Union one curated module's functions into the index, with the
deterministic URL construction `base/module/fn.<name>.html`. -/
def curatedStep (base : List Char) (st : DedupSt)
    (m : List Char × List (List Char)) : DedupSt :=
  m.2.foldl
    (fun acc n =>
      pushIfNew acc n (base ++ str "/" ++ m.1 ++ str "/fn." ++ n ++ str ".html"))
    st

/-- `parseHdkIndex(html, baseUrl)`: harvest anchors (the concatenation of the
four selector scans), then union in the curated table; `seenFunctions`
deduplicates by name throughout, first occurrence winning.  (The module-link
and text-pattern strategies of the source only log and never contribute
entries, so they do not appear in the model.) -/
def parseHdkIndexL (anchors : List Anchor) (base : List Char) :
    List HdkFunction :=
  (curatedTable.foldl (curatedStep base)
    (anchors.foldl (anchorStep base) ([], []))).2

/-- `baseUrls.hdk`. -/
def hdkBaseUrl : List Char := str "https://docs.rs/hdk/latest/hdk"

/-- Leftmost match of the fallback's looser `/fn\.([^.]+)\.html/` (the run
may contain `/`). -/
def fallbackFnMatchAt (s : List Char) : Option (List Char) :=
  if isPrefixL (str "fn.") s then
    let rest := s.drop 3
    let run := rest.takeWhile (fun c => !(c == '.'))
    if run ≠ [] ∧ isPrefixL (str ".html") (rest.drop run.length) then some run
    else none
  else none

/-- First-match scan for the fallback pattern. -/
def fallbackFnMatch : List Char → Option (List Char)
  | [] => none
  | c :: rest =>
    match fallbackFnMatchAt (c :: rest) with
    | some r => some r
    | none => fallbackFnMatch rest

/-- The fallback's per-module page parse: every anchor with nonempty text
whose href contains "fn." and matches the pattern contributes an entry (no
per-module dedup). -/
def parseModulePage (module : List Char) (anchors : List Anchor) :
    List HdkFunction :=
  anchors.filterMap (fun a =>
    if a.text ≠ [] ∧ containsSub (str "fn.") a.href then
      (fallbackFnMatch a.href).map (fun name =>
        ⟨name,
          if isPrefixL (str "http") a.href then a.href
          else if isPrefixL (str "/") a.href then str "https://docs.rs" ++ a.href
          else hdkBaseUrl ++ str "/" ++ module ++ str "/" ++ a.href⟩)
    else none)

/-- The twelve known modules crawled by `discoverHDKFunctionsFallback`. -/
def knownModules : List (List Char) :=
  [str "entry", str "link", str "agent", str "chain", str "p2p",
   str "capability", str "ed25519", str "hash", str "info", str "time",
   str "random", str "x_salsa20_poly1305"]

/-- `uniqueFunctionMap`: JS `Map` insert of every entry keyed by name (later
entries overwrite the value, insertion order keeps the first position), then
`values()`. -/
def dedupLastWins (fns : List HdkFunction) : List HdkFunction :=
  (fns.foldl (fun m f => mapSet m f.name f) []).map (fun p => p.2)

/-- `discoverHDKFunctionsFallback`: crawl the known module pages (an outcome
of `none` models a failed fetch or parse, swallowed per module), merge, and
deduplicate by name. -/
def discoverFallback (moduleOutcomes : List (Option (List Anchor))) :
    List HdkFunction :=
  dedupLastWins
    (((knownModules.zip moduleOutcomes).map (fun mo =>
        match mo.2 with
        | some anchors => parseModulePage mo.1 anchors
        | none => [])).flatten)

/-- `discoverHDKFunctions` on a cold cache: parse the fetched index page, or
fall back to module crawling when the index fetch (or its parse) fails. -/
def discoverHDKFunctions (indexOutcome : Option (List Anchor))
    (moduleOutcomes : List (Option (List Anchor))) : List HdkFunction :=
  match indexOutcome with
  | some anchors => parseHdkIndexL anchors hdkBaseUrl
  | none => discoverFallback moduleOutcomes

-- ==== Content extractor, docs.rs branch (parseDocumentationPage) ====

/-- A `DocumentationResult`. -/
structure DocResult where
  title : List Char
  content : List Char
  url : List Char
  source : List Char
deriving DecidableEq

/-- The docs.rs branch's view of a page: the `.fqn`, `h1.fqn`, first `h1` and
`title` texts, the `.docblock` texts, the five content selectors' texts after
`nav, .nav, .sidebar` removal (`none` when the selector matches nothing), and
the body text. -/
structure RustDocPage where
  fqn : List Char
  h1fqn : List Char
  h1 : List Char
  titleTag : List Char
  docblocks : List (List Char)
  itemInfo : Option (List Char)
  itemDecl : Option (List Char)
  contentSel : Option (List Char)
  mainSel : Option (List Char)
  mainContentSel : Option (List Char)
  body : List Char

/-- The docs.rs selector fallback loop: take each present selector's trimmed
text in turn, stopping once it exceeds 20 characters (a lower bar, since
signatures are short); a shorter text still overwrites and the loop goes on. -/
def rustSelLoop : List (Option (List Char)) → List Char → List Char
  | [], content => content
  | none :: rest, content => rustSelLoop rest content
  | some t :: rest, _ =>
    let c := trimL t
    if 20 < c.length then c else rustSelLoop rest c

/-- Drop a leading keyword followed by at least one whitespace character
(one optional group of `/^(pub\s+)?(fn\s+)?/`). -/
def dropKwWs (kw s : List Char) : List Char :=
  if isPrefixL kw s then
    let rest := s.drop kw.length
    if rest.takeWhile isWs = [] then s else rest.dropWhile isWs
  else s

/-- `title.replace(/^(pub\s+)?(fn\s+)?/, "")`. -/
def stripPubFn (s : List Char) : List Char :=
  dropKwWs (str "fn") (dropKwWs (str "pub") s)

/-- The docs.rs branch of `parseDocumentationPage`: title from `.fqn` with
fallbacks; content from the docblocks, else the selector loop; a nonempty
`.fqn` signature is prepended as a synthesized "Function signature:" line
when the content is missing, short, or lacks both "externresult" and the
signature itself; a short result falls back to the body text; finally the
`pub`/`fn` prefix is stripped from the title and whitespace collapsed. -/
def parseRustDoc (p : RustDocPage) (url : List Char) : DocResult :=
  let title0 := jsOr p.fqn (jsOr p.h1fqn (jsOr p.h1 p.titleTag))
  let content0 :=
    if p.docblocks.length ≠ 0 then
      List.intercalate (str "\n\n")
        ((p.docblocks.map trimL).filter (fun t => t.length ≠ 0))
    else []
  let content1 :=
    if content0 = [] then
      rustSelLoop [p.itemInfo, p.itemDecl, p.contentSel, p.mainSel,
        p.mainContentSel] []
    else content0
  let fqnContent := trimL p.fqn
  let content2 :=
    if fqnContent ≠ [] then
      if content1 = [] ∨ content1.length < 50 then
        str "Function signature: " ++ fqnContent ++ str "\n\n" ++
          jsOr content1 (str "No additional documentation available.")
      else if ¬ containsSub (str "externresult") (lowerStr content1) = true ∧
          ¬ containsSub fqnContent content1 = true then
        str "Function signature: " ++ fqnContent ++ str "\n\n" ++ content1
      else content1
    else content1
  let content3 :=
    if content2 = [] ∨ content2.length < 50 then
      let bodyContent := trimL p.body
      if bodyContent ≠ [] ∧ content2.length < bodyContent.length then
        bodyContent
      else content2
    else content2
  let title1 := trimL (stripPubFn title0)
  let content4 := trimL (collapseWs content3)
  let titleF := jsOr title1 (str "Documentation")
  let contentF :=
    if content4.length ≠ 0 then content4 else str "No documentation content found."
  let source :=
    if containsSub (str "/hdk/") url then str "docs.rs/hdk" else str "docs.rs/hdi"
  ⟨trimL titleF, trimL contentF, url, source⟩

-- ==== Concept resolver (getConceptDocs) ====

/-- The `NotFoundError` kind. -/
structure NotFoundErr where
  message : List Char
deriving DecidableEq

/-- `conceptMappings`, in `Object.entries` (insertion) order — the order is
part of the contract. -/
def conceptMappings : List (List Char × List Char) := [
  (str "source chain", str "/concepts/3_source_chain"),
  (str "dht", str "/concepts/4_dht"),
  (str "links", str "/concepts/5_links_anchors"),
  (str "anchors", str "/concepts/5_links_anchors"),
  (str "zome", str "/concepts/6_zome_functions"),
  (str "validation", str "/concepts/7_validation"),
  (str "architecture", str "/concepts/2_application_architecture"),
  (str "basics", str "/concepts/1_the_basics")]

/-- `baseUrls.developer`. -/
def developerBaseUrl : List Char := str "https://developer.holochain.org"

/-- The bidirectional containment test of `getConceptDocs`. -/
def conceptKeyMatches (normalized key : List Char) : Bool :=
  containsSub key normalized || containsSub normalized key

/-- `getConceptDocs(concept)`: lowercase, take the first table entry under
bidirectional containment, and return the url handed to
`fetchDocumentationPage` (the fetch itself is the external collaborator). -/
def getConceptDocs (concept : List Char) : Except NotFoundErr (List Char) :=
  let normalized := lowerStr concept
  match conceptMappings.find? (fun e => conceptKeyMatches normalized e.1) with
  | some e => .ok (developerBaseUrl ++ e.2)
  | none => .error ⟨str "Concept not found: " ++ concept⟩

-- ==== Auxiliary definitions used by the statements and example inputs ====

instance : IsTotal SearchResult snippetDescRel :=
  ⟨fun a b => Nat.le_total b.snippet.length a.snippet.length⟩

instance : IsTrans SearchResult snippetDescRel :=
  ⟨fun _ _ _ hab hbc => Nat.le_trans hbc hab⟩

/-- The names carried by the dedup state's function list. -/
def namesOf (st : DedupSt) : List (List Char) := st.2.map (fun f => f.name)

/-- The invariant tying `seenFunctions` to the harvested functions: the seen
set is exactly the set of names present, and the names are duplicate-free. -/
def DedupInv (st : DedupSt) : Prop :=
  (∀ n, memStr n st.1 = true ↔ n ∈ namesOf st) ∧ (namesOf st).Nodup

/-- A concrete search result whose snippet has length `n`. -/
def mkSearchR (n : Nat) : SearchResult :=
  ⟨str "t", str "u", List.replicate n 'x', str "s"⟩

/-- Per-page outcomes for the ten developer pages: three short-snippet hits,
the remaining pages unreachable. -/
def cexDevOuts : List (Except SearchFailure (Option SearchResult)) :=
  [.ok (some (mkSearchR 1)), .ok (some (mkSearchR 1)), .ok (some (mkSearchR 1))] ++
    List.replicate 7 (.error .fetchError)

/-- Per-page outcomes for the twelve hdk pages: three long-snippet hits. -/
def cexHdkOuts : List (Except SearchFailure (Option SearchResult)) :=
  [.ok (some (mkSearchR 9)), .ok (some (mkSearchR 9)), .ok (some (mkSearchR 9))] ++
    List.replicate 9 (.error .fetchError)

/-- Per-page outcomes for the six hdi pages: all unreachable. -/
def cexHdiOuts : List (Except SearchFailure (Option SearchResult)) :=
  List.replicate 6 (.error .fetchError)

/-- The end-to-end scenario page for the docs.rs extractor: `.fqn` text
"pub fn create_entry(...)" and no doc-block (nor any other content
selector). -/
def fqnOnlyPage : RustDocPage :=
  ⟨str "pub fn create_entry(...)", [], [], [], [], none, none, none, none,
    none, str "pub fn create_entry(...)"⟩

/-- The url of the scenario page. -/
def fnCreateEntryUrl : List Char :=
  str "https://docs.rs/hdk/latest/hdk/entry/fn.create_entry.html"

-- ======================= Theorems =======================

-- ==== Substring containment: the boolean scan vs the existential split ====

theorem isPrefixL_iff (p s : List Char) : isPrefixL p s = true ↔ ∃ r, s = p ++ r := by
  induction p generalizing s with
  | nil => simp [isPrefixL]
  | cons a ps ih =>
    cases s with
    | nil => simp [isPrefixL]
    | cons c cs =>
      simp only [isPrefixL, Bool.and_eq_true, beq_iff_eq, ih, List.cons_append,
        List.cons.injEq]
      constructor
      · rintro ⟨rfl, r, rfl⟩
        exact ⟨r, rfl, rfl⟩
      · rintro ⟨r, rfl, rfl⟩
        exact ⟨rfl, r, rfl⟩

theorem SubStr_cons (pat : List Char) (c : Char) (rest : List Char) :
    SubStr pat (c :: rest) ↔ (∃ r, c :: rest = pat ++ r) ∨ SubStr pat rest := by
  constructor
  · rintro ⟨l, r, h⟩
    cases l with
    | nil => exact Or.inl ⟨r, by simpa using h⟩
    | cons a l =>
      have h2 : rest = l ++ pat ++ r := by
        have h' := h
        simp only [List.cons_append, List.cons.injEq] at h'
        exact h'.2
      exact Or.inr ⟨l, r, h2⟩
  · rintro (⟨r, h⟩ | ⟨l, r, h⟩)
    · exact ⟨[], r, by simpa using h⟩
    · exact ⟨c :: l, r, by simp [h]⟩

theorem containsSub_iff (pat s : List Char) : containsSub pat s = true ↔ SubStr pat s := by
  induction s with
  | nil =>
    rw [show containsSub pat [] = isPrefixL pat [] from rfl, isPrefixL_iff]
    constructor
    · rintro ⟨r, h⟩
      exact ⟨[], r, by simpa using h⟩
    · rintro ⟨l, r, h⟩
      have h' := h.symm
      simp only [List.append_eq_nil] at h'
      exact ⟨r, by simp [h'.1.2, h'.2]⟩
  | cons c rest ih =>
    rw [show containsSub pat (c :: rest) =
        (isPrefixL pat (c :: rest) || containsSub pat rest) from rfl,
      Bool.or_eq_true, isPrefixL_iff, ih, SubStr_cons]

-- ==== Quality gate characterization ====

theorem isGoodContent_eq_false_iff (C : List Char) :
    isGoodContent C = false ↔
      (trimL C).length ≤ 100 ∨ SubStr (str "404") C ∨ SubStr (str "Not Found") C ∨
        SubStr (str "Error") C := by
  rw [Bool.eq_false_iff]
  constructor
  · intro h
    by_contra hcon
    push_neg at hcon
    obtain ⟨h1, h2, h3, h4⟩ := hcon
    apply h
    simp only [isGoodContent, Bool.and_eq_true, Bool.not_eq_true', decide_eq_true_eq]
    refine ⟨⟨⟨by omega, ?_⟩, ?_⟩, ?_⟩ <;>
      rw [Bool.eq_false_iff] <;> intro hc
    · exact h2 ((containsSub_iff _ _).mp hc)
    · exact h3 ((containsSub_iff _ _).mp hc)
    · exact h4 ((containsSub_iff _ _).mp hc)
  · intro h hgood
    simp only [isGoodContent, Bool.and_eq_true, Bool.not_eq_true', decide_eq_true_eq] at hgood
    obtain ⟨⟨⟨hlen, hc1⟩, hc2⟩, hc3⟩ := hgood
    rcases h with h | h | h | h
    · omega
    · rw [(containsSub_iff _ _).mpr h] at hc1; cases hc1
    · rw [(containsSub_iff _ _).mpr h] at hc2; cases hc2
    · rw [(containsSub_iff _ _).mpr h] at hc3; cases hc3

-- ==== Association-list (JS Map) lemmas ====

theorem mapGet_mapDelete {α : Type} (m : List (List Char × α)) (k : List Char) :
    mapGet (mapDelete m k) k = none := by
  induction m with
  | nil => rfl
  | cons p rest ih =>
    simp only [mapDelete, List.filter_cons] at *
    by_cases h : p.1 = k
    · simp [h, ih]
    · have hb : (p.1 == k) = false := by simpa using h
      simp only [hb, Bool.not_false, if_pos]
      have hstep : mapGet (p :: List.filter (fun q => !(q.1 == k)) rest) k =
          mapGet (List.filter (fun q => !(q.1 == k)) rest) k := by
        simp [mapGet, List.find?_cons, hb]
      rw [hstep]
      exact ih

theorem mem_mapSet {α : Type} (m : List (List Char × α)) (k : List Char) (v : α)
    (p : List Char × α) (hp : p ∈ mapSet m k v) : p = (k, v) ∨ p ∈ m := by
  unfold mapSet at hp
  split at hp
  · obtain ⟨q, hq, hqe⟩ := List.mem_map.mp hp
    by_cases h : q.1 = k
    · left
      have hb : (q.1 == k) = true := by simpa using h
      rw [if_pos hb] at hqe
      exact hqe.symm
    · right
      have hb : (q.1 == k) = false := by simpa using h
      rw [if_neg (by simp [hb])] at hqe
      exact hqe ▸ hq
  · rcases List.mem_append.mp hp with h | h
    · exact Or.inr h
    · exact Or.inl (by simpa using h)

-- ==== Cache invariant lemmas ====

theorem goodCache_fetchAndCache (url C : List Char) (now : Nat) (cache : Cache)
    (h : ∀ p ∈ cache, isGoodContent p.2.content = true) :
    ∀ p ∈ (fetchAndCache url C now cache).2, isGoodContent p.2.content = true := by
  intro p hp
  by_cases hg : isGoodContent C = true
  · simp only [fetchAndCache, hg, if_true] at hp
    have hp' : p ∈ mapSet cache url ⟨C, now⟩ := by
      split at hp
      · exact List.mem_of_mem_filter hp
      · exact hp
    rcases mem_mapSet _ _ _ _ hp' with rfl | hm
    · simpa using hg
    · exact h p hm
  · rw [Bool.not_eq_true] at hg
    simp only [fetchAndCache, hg, Bool.false_eq_true, if_false] at hp
    exact h p (List.mem_of_mem_filter hp)

theorem goodCache_cacheGetStep (url : List Char) (now : Nat) (cache : Cache)
    (h : ∀ p ∈ cache, isGoodContent p.2.content = true) :
    ∀ p ∈ (cacheGetStep url now cache).2, isGoodContent p.2.content = true := by
  intro p hp
  unfold cacheGetStep at hp
  rcases hg : mapGet cache url with _ | e <;> rw [hg] at hp
  · exact h p hp
  · simp only at hp
    split at hp
    · split at hp
      · exact h p hp
      · exact h p (List.mem_of_mem_filter hp)
    · exact h p hp

theorem reachableCache_good (c : Cache) (h : ReachableCache c) :
    ∀ p ∈ c, isGoodContent p.2.content = true := by
  induction h with
  | init => intro p hp; cases hp
  | put url C now _ ih => exact goodCache_fetchAndCache url C now _ ih
  | read url now _ ih => exact goodCache_cacheGetStep url now _ ih

theorem fetchAndCache_fst (url C : List Char) (now : Nat) (c : Cache) :
    (fetchAndCache url C now c).1 = C := by
  unfold fetchAndCache
  split <;> rfl

/-- C1: the cache quality gate holds both ways.  Offering content whose
trimmed length is at most 100 or which contains "404", "Not Found" or
"Error" stores nothing (any prior entry for the url is even deleted) and a
subsequent read misses; a read that finds a fresh stored entry failing the
same gate evicts the entry and reports a miss; consequently every entry
resident in a reachable cache satisfies the quality predicate. -/
theorem cache_quality_gate_both_ways :
    (∀ url C now t cache,
      ((trimL C).length ≤ 100 ∨ SubStr (str "404") C ∨ SubStr (str "Not Found") C ∨
          SubStr (str "Error") C) →
        mapGet (fetchAndCache url C now cache).2 url = none ∧
        (cacheGetStep url t (fetchAndCache url C now cache).2).1 = none) ∧
    (∀ url now cache e, mapGet cache url = some e →
      now - e.timestamp < CACHE_TTL →
      ((trimL e.content).length ≤ 100 ∨ SubStr (str "404") e.content ∨
          SubStr (str "Not Found") e.content ∨ SubStr (str "Error") e.content) →
        (cacheGetStep url now cache).1 = none ∧
        mapGet (cacheGetStep url now cache).2 url = none) ∧
    (∀ cache, ReachableCache cache → ∀ p ∈ cache, isGoodContent p.2.content = true) := by
  refine ⟨?_, ?_, reachableCache_good⟩
  · intro url C now t cache hbad
    have hg : isGoodContent C = false := (isGoodContent_eq_false_iff C).mpr hbad
    have h2 : (fetchAndCache url C now cache).2 = mapDelete cache url := by
      unfold fetchAndCache
      rw [if_neg (by simp [hg])]
    rw [h2]
    refine ⟨mapGet_mapDelete cache url, ?_⟩
    unfold cacheGetStep
    rw [mapGet_mapDelete cache url]
  · intro url now cache e hsome hfresh hbad
    have hg : isGoodContent e.content = false := (isGoodContent_eq_false_iff _).mpr hbad
    have hstep : cacheGetStep url now cache = (none, mapDelete cache url) := by
      unfold cacheGetStep
      rw [hsome]
      simp only [if_pos hfresh]
      rw [if_neg (by simp [hg])]
    rw [hstep]
    exact ⟨rfl, mapGet_mapDelete cache url⟩

theorem cache_quality_gate_both_ways_witness :
    (mapGet (fetchAndCache (str "u") (str "404") 0 []).2 (str "u") = none ∧
      (cacheGetStep (str "u") 0 (fetchAndCache (str "u") (str "404") 0 []).2).1 = none) ∧
    ((cacheGetStep (str "u") 5 [(str "u", ⟨str "server Error page", 0⟩)]).1 = none ∧
      mapGet (cacheGetStep (str "u") 5 [(str "u", ⟨str "server Error page", 0⟩)]).2
        (str "u") = none) :=
  ⟨cache_quality_gate_both_ways.1 (str "u") (str "404") 0 0 [] (Or.inl (by decide)),
   cache_quality_gate_both_ways.2.1 (str "u") 5 [(str "u", ⟨str "server Error page", 0⟩)]
     ⟨str "server Error page", 0⟩ (by decide) (by decide) (Or.inl (by decide))⟩

/-- C6: on the static fetch path the two failure causes are NOT
distinguishable.  The final `Effect.mapError` sits after `Effect.timeout` and
rewrites every error — the transport-failure `FetchError` built by the inner
`Effect.mapError` included — to the identical
`FetchError "Timeout fetching: <url>"` value, so the
"Failed to fetch: <url>" value can never reach a caller. -/
theorem static_timeout_and_transport_collapse :
    (fetchPageStatic (str "https://docs.rs/hdk/latest/hdk/index.html")
        .transportFailure 0 []).1 =
      Except.error ⟨str "Timeout fetching: https://docs.rs/hdk/latest/hdk/index.html"⟩ ∧
    (fetchPageStatic (str "https://docs.rs/hdk/latest/hdk/index.html")
        .timedOut 0 []).1 =
      Except.error ⟨str "Timeout fetching: https://docs.rs/hdk/latest/hdk/index.html"⟩ :=
  ⟨by decide, by decide⟩

/-- C10: whenever the read path does not return a cached value and the
underlying fetch succeeds with content `C`, `fetchPage` returns `C` to its
caller unchanged — the quality gate decides only whether `C` is cached
(a gate-failing `C` even evicts any stale entry), never whether it is
returned or turned into an error. -/
theorem fetchPage_returns_unvetted_content (url C : List Char) (now : Nat)
    (cache : Cache) (hmiss : (cacheGetStep url now cache).1 = none) :
    (fetchPageStatic url (.success C) now cache).1 = .ok C ∧
    (isGoodContent C = false →
      mapGet (fetchPageStatic url (.success C) now cache).2 url = none) := by
  rcases hstep : cacheGetStep url now cache with ⟨o, c2⟩
  rw [hstep] at hmiss
  simp only at hmiss
  subst hmiss
  have hred : fetchPageStatic url (.success C) now cache =
      staticFetchPath url (.success C) now c2 := by
    unfold fetchPageStatic
    rw [hstep]
  rw [hred]
  constructor
  · unfold staticFetchPath staticPipeline
    simp only
    rw [fetchAndCache_fst]
  · intro hg
    unfold staticFetchPath staticPipeline
    simp only
    have h2 : (fetchAndCache url C now c2).2 = mapDelete c2 url := by
      unfold fetchAndCache
      rw [if_neg (by simp [hg])]
    rw [h2]
    exact mapGet_mapDelete c2 url

theorem fetchPage_returns_unvetted_content_witness :
    (fetchPageStatic (str "u") (.success (str "an Error page")) 0 []).1 =
      .ok (str "an Error page") ∧
    (isGoodContent (str "an Error page") = false →
      mapGet (fetchPageStatic (str "u") (.success (str "an Error page")) 0 []).2
        (str "u") = none) :=
  fetchPage_returns_unvetted_content (str "u") (str "an Error page") 0 [] (by decide)

-- ==== Search pipeline lemmas ====

theorem pageCaught_always_ok (o : Except SearchFailure (Option SearchResult)) :
    ∃ l, pageCaught o = .ok l := by
  cases o with
  | ok v => exact ⟨v.toList, rfl⟩
  | error e => exact ⟨[], rfl⟩

theorem collectAll_all_ok (outs : List (Except SearchFailure (List SearchResult)))
    (h : ∀ x ∈ outs, ∃ l, x = .ok l) : ∃ ls, collectAll outs = .ok ls := by
  induction outs with
  | nil => exact ⟨[], rfl⟩
  | cons x xs ih =>
    obtain ⟨l, hl⟩ := h x (List.mem_cons_self x xs)
    obtain ⟨ls, hls⟩ := ih (fun y hy => h y (List.mem_cons_of_mem x hy))
    subst hl
    exact ⟨l :: ls, by simp [collectAll, hls]⟩

theorem rankResults_length_le (rs : List SearchResult) :
    (rankResults rs).length ≤ 5 := by
  simp only [rankResults, List.length_take]
  omega

theorem rankResults_sorted (rs : List SearchResult) :
    (rankResults rs).Pairwise snippetDescRel :=
  List.Pairwise.sublist (List.take_sublist 5 _)
    (List.sorted_insertionSort snippetDescRel rs)

theorem searchScope_ok (outs : List (Except SearchFailure (Option SearchResult))) :
    ∃ rs, searchScope outs = .ok rs := by
  obtain ⟨ls, hls⟩ := collectAll_all_ok (outs.map pageCaught) (by
    intro x hx
    obtain ⟨o, _, rfl⟩ := List.mem_map.mp hx
    exact pageCaught_always_ok o)
  exact ⟨rankResults ls.flatten, by simp [searchScope, hls, Except.map]⟩

theorem searchScope_ok_props (outs : List (Except SearchFailure (Option SearchResult)))
    (rs : List SearchResult) (h : searchScope outs = .ok rs) :
    rs.length ≤ 5 ∧ rs.Pairwise snippetDescRel := by
  unfold searchScope at h
  rcases hc : collectAll (outs.map pageCaught) with e | ls <;> rw [hc] at h
  · cases h
  · simp only [Except.map] at h
    have hrs : rs = rankResults ls.flatten := by
      cases h
      rfl
    subst hrs
    exact ⟨rankResults_length_le _, rankResults_sorted _⟩

/-- C9: per-page failures inside a multi-page search are swallowed: a failing
page's scan is caught and contributes the empty result set, the scope-level
search therefore always succeeds, and its outcome is the same as if every
failing page had simply produced no result. -/
theorem search_per_page_failures_swallowed :
    (∀ e : SearchFailure, pageCaught (.error e) = .ok []) ∧
    (∀ outs, ∃ rs, searchScope outs = .ok rs) ∧
    (∀ outs, searchScope outs =
      searchScope (outs.map (fun o =>
        match o with
        | .error _ => .ok none
        | .ok v => .ok v))) := by
  refine ⟨fun e => rfl, searchScope_ok, ?_⟩
  intro outs
  unfold searchScope
  rw [List.map_map]
  have : outs.map pageCaught = outs.map (pageCaught ∘ fun o =>
      match o with
      | .error _ => .ok none
      | .ok v => .ok v) := by
    apply List.map_congr_left
    intro o _
    cases o with
    | ok v => rfl
    | error e => rfl
  rw [this]

/-- C2 counterexample: for scope `all` the handler concatenates the three
per-source top-5 lists without re-ranking or re-capping, so a search can
return six results that are not ordered by descending snippet length, against
the claim's "at most 5, ordered by descending snippet length, for every
scope". -/
theorem search_all_scope_counterexample :
    searchHolochainDocs .all cexDevOuts cexHdkOuts cexHdiOuts =
      .ok [mkSearchR 1, mkSearchR 1, mkSearchR 1, mkSearchR 9, mkSearchR 9, mkSearchR 9] ∧
    ¬ ([mkSearchR 1, mkSearchR 1, mkSearchR 1, mkSearchR 9, mkSearchR 9,
        mkSearchR 9].length ≤ 5) ∧
    ¬ List.Pairwise snippetDescRel
      [mkSearchR 1, mkSearchR 1, mkSearchR 1, mkSearchR 9, mkSearchR 9, mkSearchR 9] := by
  refine ⟨by decide, by decide, ?_⟩
  intro h
  have := (List.pairwise_cons.mp h).1 (mkSearchR 9) (by simp)
  revert this
  decide

/-- C2 (amended): for each single scope (developer, hdk, hdi) the search
returns at most 5 results ordered by descending snippet length; for scope
`all` the handler returns the concatenation of the three per-source top-5
lists, so the overall list is only bounded by 15. -/
theorem search_scope_top5 (source : SearchSource)
    (dev hdk hdi : List (Except SearchFailure (Option SearchResult)))
    (rs : List SearchResult)
    (h : searchHolochainDocs source dev hdk hdi = .ok rs) :
    (source ≠ .all → rs.length ≤ 5 ∧ rs.Pairwise snippetDescRel) ∧
    rs.length ≤ 15 := by
  obtain ⟨r1, h1⟩ := searchScope_ok dev
  obtain ⟨r2, h2⟩ := searchScope_ok hdk
  obtain ⟨r3, h3⟩ := searchScope_ok hdi
  obtain ⟨p1l, p1s⟩ := searchScope_ok_props dev r1 h1
  obtain ⟨p2l, p2s⟩ := searchScope_ok_props hdk r2 h2
  obtain ⟨p3l, p3s⟩ := searchScope_ok_props hdi r3 h3
  cases source with
  | all =>
    simp only [searchHolochainDocs, h1, h2, h3] at h
    simp at h
    subst h
    refine ⟨fun hne => absurd rfl hne, ?_⟩
    simp only [List.length_append]
    omega
  | developer =>
    simp only [searchHolochainDocs, h1, h2, h3] at h
    simp at h
    subst h
    exact ⟨fun _ => ⟨p1l, p1s⟩, by omega⟩
  | hdk =>
    simp only [searchHolochainDocs, h1, h2, h3] at h
    simp at h
    subst h
    exact ⟨fun _ => ⟨p2l, p2s⟩, by omega⟩
  | hdi =>
    simp only [searchHolochainDocs, h1, h2, h3] at h
    simp at h
    subst h
    exact ⟨fun _ => ⟨p3l, p3s⟩, by omega⟩

theorem search_scope_top5_witness :
    [mkSearchR 3].length ≤ 5 ∧ List.Pairwise snippetDescRel [mkSearchR 3] :=
  (search_scope_top5 .developer [.ok (some (mkSearchR 3))] [] [] [mkSearchR 3]
    (by decide)).1 (by decide)

-- ==== Relevance scorer lemmas ====

theorem isPrefixL_imp_ciPrefix (p : List Char) :
    ∀ s, isPrefixL p s = true → ciPrefix p s = true := by
  induction p with
  | nil =>
    intro s _
    rfl
  | cons a ps ih =>
    intro s h
    cases s with
    | nil => simp [isPrefixL] at h
    | cons c cs =>
      simp only [isPrefixL, Bool.and_eq_true, beq_iff_eq] at h
      simp only [ciPrefix, Bool.and_eq_true, beq_iff_eq]
      exact ⟨by rw [h.1], ih cs h.2⟩

theorem containsSub_imp_ciContains (pat s : List Char)
    (h : containsSub pat s = true) : ciContains pat s = true := by
  induction s with
  | nil =>
    rw [show containsSub pat [] = isPrefixL pat [] from rfl] at h
    rw [show ciContains pat [] = ciPrefix pat [] from rfl]
    exact isPrefixL_imp_ciPrefix pat [] h
  | cons c rest ih =>
    rw [show containsSub pat (c :: rest) =
        (isPrefixL pat (c :: rest) || containsSub pat rest) from rfl,
      Bool.or_eq_true] at h
    rw [show ciContains pat (c :: rest) =
        (ciPrefix pat (c :: rest) || ciContains pat rest) from rfl,
      Bool.or_eq_true]
    rcases h with h | h
    · exact Or.inl (isPrefixL_imp_ciPrefix pat _ h)
    · exact Or.inr (ih h)

theorem countOccCIGo_pos (pat : List Char) (hpat : pat ≠ []) :
    ∀ fuel s, s.length ≤ fuel → ciContains pat s = true →
      0 < countOccCIGo fuel pat s := by
  intro fuel
  induction fuel with
  | zero =>
    intro s hs hc
    have hnil : s = [] := List.length_eq_zero.mp (Nat.le_zero.mp hs)
    subst hnil
    cases pat with
    | nil => exact absurd rfl hpat
    | cons a ps => simp [ciContains, ciPrefix] at hc
  | succ fuel ih =>
    intro s hs hc
    cases s with
    | nil =>
      cases pat with
      | nil => exact absurd rfl hpat
      | cons a ps => simp [ciContains, ciPrefix] at hc
    | cons c rest =>
      have hunf : countOccCIGo (fuel + 1) pat (c :: rest) =
          if ciPrefix pat (c :: rest) then
            1 + countOccCIGo fuel pat ((c :: rest).drop pat.length)
          else countOccCIGo fuel pat rest := rfl
      rw [hunf]
      by_cases hp : ciPrefix pat (c :: rest) = true
      · rw [if_pos hp]
        omega
      · rw [if_neg hp]
        have hrest : ciContains pat rest = true := by
          have h' := hc
          rw [show ciContains pat (c :: rest) =
              (ciPrefix pat (c :: rest) || ciContains pat rest) from rfl,
            Bool.or_eq_true] at h'
          rcases h' with h' | h'
          · exact absurd h' hp
          · exact h'
        refine ih rest ?_ hrest
        simp only [List.length_cons] at hs
        omega

theorem countOccCI_pos (pat s : List Char) (h : containsSub pat s = true) :
    0 < countOccCI pat s := by
  unfold countOccCI
  by_cases hp : pat = []
  · rw [if_pos hp]
    omega
  · rw [if_neg hp]
    exact countOccCIGo_pos pat hp s.length s le_rfl
      (containsSub_imp_ciContains pat s h)

theorem foldl_add_counts (f : List Char → Nat) (terms : List (List Char)) (n : Nat) :
    terms.foldl (fun sc t => sc + f t) n = n + (terms.map f).sum := by
  induction terms generalizing n with
  | nil => simp
  | cons t ts ih =>
    rw [List.foldl_cons, ih, List.map_cons, List.sum_cons]
    omega

/-- C3 counterexample: the term "DHT" has a case-insensitive occurrence in
the body "the dht is a distributed hash table", yet the scorer reports an
absence (the `includes` presence check against the lowercased body is
case-sensitive); and for the lowercase term "shading", present in the body,
the result is present but the boilerplate strip erases the term from the
snippet, so the snippet contains no term at all. -/
theorem relevance_scorer_counterexample :
    containsSub (lowerStr (str "DHT"))
      (lowerStr (str "the dht is a distributed hash table")) = true ∧
    parseSearchResults
      ⟨str "T", [], str "the dht is a distributed hash table", List.replicate 9 []⟩
      (str "https://docs.rs/hdi/x") [str "DHT"] = none ∧
    parseSearchResults
      ⟨str "T", [], str "x Circle with shading containing statistic y",
        List.replicate 9 []⟩
      (str "https://docs.rs/hdi/x") [str "shading"] =
      some ⟨str "T", str "https://docs.rs/hdi/x", str "x y", str "docs.rs/hdi"⟩ ∧
    containsSub (lowerStr (str "shading")) (lowerStr (str "x y")) = false :=
  ⟨by decide, by decide, by decide, by decide⟩

/-- C3 (amended): for terms free of JS regex metacharacters — for which
`new RegExp(term, "gi")` is a literal case-insensitive matcher and never
throws, the domain on which this embedding is exact — the scorer returns an
absence (not an error) exactly when no term occurs as a substring of the
lowercased body text; when some term does occur there, a result is present.
(Terms with metacharacters are interpreted as regex syntax by the program —
some even make `RegExp` throw, surfacing as a `ParseError` — and terms with
uppercase letters can score without ever being "found"; the snippet of a
present result is not guaranteed to retain a term.) -/
theorem relevance_scorer_presence (p : SearchPage) (url : List Char)
    (terms : List (List Char)) (_hsafe : ∀ t ∈ terms, regexSafe t = true) :
    parseSearchResults p url terms = none ↔
      ∀ t ∈ terms, ¬ SubStr t (lowerStr p.body) := by
  simp only [parseSearchResults]
  constructor
  · intro h t ht hsub
    have hcont : containsSub t (lowerStr p.body) = true :=
      (containsSub_iff _ _).mpr hsub
    have hscore :
        ¬ (terms.foldl (fun sc t => sc + countOccCI t (lowerStr p.body)) 0 = 0) := by
      rw [foldl_add_counts]
      have hmem : countOccCI t (lowerStr p.body) ∈
          terms.map (fun t => countOccCI t (lowerStr p.body)) :=
        List.mem_map_of_mem _ ht
      have hpos := countOccCI_pos t (lowerStr p.body) hcont
      have hle := List.single_le_sum
        (fun (x : Nat) _ => Nat.zero_le x) _ hmem
      omega
    rw [if_neg hscore] at h
    have hfind : (terms.find? (fun t => containsSub t (lowerStr p.body))).isSome :=
      List.find?_isSome.mpr ⟨t, ht, hcont⟩
    rcases hfound : terms.find? (fun t => containsSub t (lowerStr p.body)) with _ | ft
    · rw [hfound] at hfind
      cases hfind
    · rw [hfound] at h
      cases h
  · intro hall
    have hfind : terms.find? (fun t => containsSub t (lowerStr p.body)) = none :=
      List.find?_eq_none.mpr (fun t ht => by
        intro hc
        exact hall t ht ((containsSub_iff _ _).mp hc))
    by_cases hs : terms.foldl (fun sc t => sc + countOccCI t (lowerStr p.body)) 0 = 0
    · rw [if_pos hs]
    · rw [if_neg hs, hfind]

theorem relevance_scorer_presence_witness :
    (∀ t ∈ [str "dht"], regexSafe t = true) ∧
    (parseSearchResults
        ⟨str "T", [], str "the dht stores entries", List.replicate 9 []⟩
        (str "https://docs.rs/hdi/x") [str "dht"] = none ↔
      ∀ t ∈ [str "dht"], ¬ SubStr t (lowerStr (str "the dht stores entries"))) :=
  ⟨by decide,
   relevance_scorer_presence
     ⟨str "T", [], str "the dht stores entries", List.replicate 9 []⟩
     (str "https://docs.rs/hdi/x") [str "dht"] (by decide)⟩

-- ==== Function index dedup lemmas ====

theorem memStr_iff (n : List Char) (l : List (List Char)) :
    memStr n l = true ↔ n ∈ l := by
  simp [memStr, List.any_eq_true, beq_iff_eq]

theorem foldl_preserves {α β : Type} (P : α → Prop) (f : α → β → α)
    (hf : ∀ a b, P a → P (f a b)) :
    ∀ (l : List β) (a : α), P a → P (l.foldl f a) := by
  intro l
  induction l with
  | nil => intro a h; simpa using h
  | cons b bs ih =>
    intro a h
    rw [List.foldl_cons]
    exact ih _ (hf a b h)

theorem dedupInv_nil : DedupInv ([], []) := by
  constructor
  · intro n
    simp [memStr, namesOf]
  · simp [namesOf]

theorem dedupInv_pushIfNew (st : DedupSt) (n u : List Char) (h : DedupInv st) :
    DedupInv (pushIfNew st n u) := by
  unfold pushIfNew
  by_cases hm : memStr n st.1 = true
  · rw [if_pos hm]
    exact h
  · rw [if_neg hm]
    obtain ⟨hiff, hnd⟩ := h
    constructor
    · intro m
      have hseen : memStr m (n :: st.1) = ((n == m) || memStr m st.1) := by
        simp [memStr, List.any_cons]
      rw [hseen]
      simp only [namesOf, List.map_append, List.map_cons, List.map_nil,
        List.mem_append, Bool.or_eq_true, beq_iff_eq, hiff m]
      constructor
      · rintro (rfl | hmem)
        · simp
        · exact Or.inl hmem
      · rintro (hmem | hm2)
        · exact Or.inr hmem
        · simp only [List.mem_singleton] at hm2
          exact Or.inl hm2.symm
    · simp only [namesOf, List.map_append, List.map_cons, List.map_nil]
      rw [List.nodup_append]
      refine ⟨hnd, List.nodup_singleton n, ?_⟩
      intro m hm1 hm2
      simp only [List.mem_singleton] at hm2
      subst hm2
      exact hm ((hiff m).mpr hm1)

theorem mem_namesOf_pushIfNew_self (st : DedupSt) (n u : List Char)
    (h : DedupInv st) : n ∈ namesOf (pushIfNew st n u) := by
  unfold pushIfNew
  by_cases hm : memStr n st.1 = true
  · rw [if_pos hm]
    exact (h.1 n).mp hm
  · rw [if_neg hm]
    simp [namesOf]

theorem mem_namesOf_pushIfNew_mono (st : DedupSt) (m n u : List Char)
    (h : m ∈ namesOf st) : m ∈ namesOf (pushIfNew st n u) := by
  unfold pushIfNew
  split
  · exact h
  · simp only [namesOf, List.map_append, List.mem_append]
    exact Or.inl h

theorem dedupInv_anchorStep (base : List Char) (st : DedupSt) (a : Anchor)
    (h : DedupInv st) : DedupInv (anchorStep base st a) := by
  unfold anchorStep
  split
  · split
    · exact dedupInv_pushIfNew _ _ _ h
    · exact h
  · exact h

theorem dedupInv_curatedStep (base : List Char) (st : DedupSt)
    (x : List Char × List (List Char)) (h : DedupInv st) :
    DedupInv (curatedStep base st x) :=
  foldl_preserves DedupInv _ (fun acc n hacc => dedupInv_pushIfNew acc n _ hacc)
    x.2 st h

theorem mem_namesOf_curatedStep_mono (base : List Char) (st : DedupSt)
    (m : List Char) (x : List Char × List (List Char)) (h : m ∈ namesOf st) :
    m ∈ namesOf (curatedStep base st x) :=
  foldl_preserves (fun acc => m ∈ namesOf acc) _
    (fun acc n hacc => mem_namesOf_pushIfNew_mono acc m n _ hacc) x.2 st h

theorem dedupInv_parse_state (anchors : List Anchor) (base : List Char) :
    DedupInv (curatedTable.foldl (curatedStep base)
      (anchors.foldl (anchorStep base) ([], []))) :=
  foldl_preserves DedupInv _ (fun acc x hacc => dedupInv_curatedStep base acc x hacc)
    curatedTable _
    (foldl_preserves DedupInv _ (fun acc a hacc => dedupInv_anchorStep base acc a hacc)
      anchors ([], []) dedupInv_nil)

theorem mem_namesOf_pushFold (urlOf : List Char → List Char) (n : List Char) :
    ∀ (names : List (List Char)) (st : DedupSt), DedupInv st → n ∈ names →
      n ∈ namesOf (names.foldl (fun acc m => pushIfNew acc m (urlOf m)) st) := by
  intro names
  induction names with
  | nil =>
    rintro st _ h
    cases h
  | cons m ms ih =>
    rintro st hinv h
    rw [List.foldl_cons]
    rcases List.mem_cons.mp h with rfl | h'
    · exact foldl_preserves (fun acc => n ∈ namesOf acc) _
        (fun acc k hacc => mem_namesOf_pushIfNew_mono acc n k _ hacc) ms _
        (mem_namesOf_pushIfNew_self st n _ hinv)
    · exact ih _ (dedupInv_pushIfNew st m _ hinv) h'

theorem mem_namesOf_curatedStep_self (base : List Char) (st : DedupSt)
    (x : List Char × List (List Char)) (n : List Char) (hn : n ∈ x.2)
    (hinv : DedupInv st) : n ∈ namesOf (curatedStep base st x) :=
  mem_namesOf_pushFold
    (fun m => base ++ str "/" ++ x.1 ++ str "/fn." ++ m ++ str ".html")
    n x.2 st hinv hn

theorem mem_namesOf_foldl_curated (base n : List Char) :
    ∀ (table : List (List Char × List (List Char))) (st : DedupSt), DedupInv st →
      (∃ x ∈ table, n ∈ x.2) →
      n ∈ namesOf (table.foldl (curatedStep base) st) := by
  intro table
  induction table with
  | nil =>
    rintro st _ ⟨x, hx, _⟩
    cases hx
  | cons x xs ih =>
    rintro st hinv ⟨y, hy, hn⟩
    rw [List.foldl_cons]
    rcases List.mem_cons.mp hy with rfl | hy'
    · exact foldl_preserves (fun acc => n ∈ namesOf acc) _
        (fun acc z hacc => mem_namesOf_curatedStep_mono base acc n z hacc) xs _
        (mem_namesOf_curatedStep_self base st y n hn hinv)
    · exact ih _ (dedupInv_curatedStep base st x hinv) ⟨y, hy', hn⟩

theorem create_entry_mem_parseHdkIndex (anchors : List Anchor) (base : List Char) :
    str "create_entry" ∈ (parseHdkIndexL anchors base).map (fun f => f.name) := by
  have hinv0 : DedupInv (anchors.foldl (anchorStep base) ([], [])) :=
    foldl_preserves DedupInv _ (fun acc a hacc => dedupInv_anchorStep base acc a hacc)
      anchors ([], []) dedupInv_nil
  have h := mem_namesOf_foldl_curated base (str "create_entry") curatedTable
    (anchors.foldl (anchorStep base) ([], [])) hinv0 (by decide)
  exact h

/-- C4 counterexample: when the index-page fetch (or its parse) fails and
every module-page fetch of the fallback crawl fails too, discovery returns
the empty index — the curated-table union lives inside `parseHdkIndex`,
which never runs on this path, so the index is not "never empty even if
every network call fails". -/
theorem hdk_discovery_empty_counterexample :
    discoverHDKFunctions none (List.replicate 12 none) = [] := by decide

/-- C4 (amended): whenever the fetched index page is parsed — whatever
anchors it yields, including none at all — `parseHdkIndex` unions in the
curated table, so the discovered index contains a `create_entry` entry and is
non-empty; only the fallback path taken when the index fetch fails can
produce an empty index (namely when every module fetch fails as well). -/
theorem hdk_index_nonempty_on_success (anchors : List Anchor)
    (mo : List (Option (List Anchor))) :
    discoverHDKFunctions (some anchors) mo ≠ [] ∧
    ∃ f ∈ discoverHDKFunctions (some anchors) mo, f.name = str "create_entry" := by
  have hmem := create_entry_mem_parseHdkIndex anchors hdkBaseUrl
  obtain ⟨f, hf, hname⟩ := List.mem_map.mp hmem
  have hred : discoverHDKFunctions (some anchors) mo =
      parseHdkIndexL anchors hdkBaseUrl := rfl
  rw [hred]
  exact ⟨List.ne_nil_of_mem hf, f, hf, hname⟩

/-- C5: the function index built by `parseHdkIndex` is deduplicated by name —
for every input, each name appears at most once (`seenFunctions` guards every
push, so the first occurrence wins and the curated fallback never re-adds a
harvested name); in particular the index built from a page with anchors to
entry/fn.create_entry.html and link/fn.get_links.html, together with the
curated table containing create_entry, has exactly one create_entry entry. -/
theorem hdk_index_dedup_by_name :
    (∀ anchors base, ((parseHdkIndexL anchors base).map (fun f => f.name)).Nodup) ∧
    (parseHdkIndexL
        [⟨str "entry/fn.create_entry.html", str "create_entry"⟩,
         ⟨str "link/fn.get_links.html", str "get_links"⟩] hdkBaseUrl).countP
      (fun f => f.name == str "create_entry") = 1 := by
  constructor
  · intro anchors base
    exact (dedupInv_parse_state anchors base).2
  · decide

-- ==== docs.rs extractor scenario ====

/-- C7 counterexample: for the static API-reference page whose `.fqn` text is
"pub fn create_entry(...)" and which has no doc-block, the title has the
pub/fn prefix stripped as claimed, but the synthesized signature line embeds
the raw `.fqn` text — the prefix strip is applied to the title only — so the
content does NOT begin with "Function signature: create_entry(...)". -/
theorem fqn_extraction_counterexample :
    (parseRustDoc fqnOnlyPage fnCreateEntryUrl).title = str "create_entry(...)" ∧
    isPrefixL (str "Function signature: create_entry")
      (parseRustDoc fqnOnlyPage fnCreateEntryUrl).content = false :=
  ⟨by decide, by decide⟩

/-- C7 (amended): for that page the extractor returns title
"create_entry(...)" (prefix stripped) and a content that begins with
"Function signature: pub fn create_entry(...)" — the raw `.fqn` text,
keyword prefix included — followed by the no-additional-documentation
filler. -/
theorem fqn_extraction_amended :
    (parseRustDoc fqnOnlyPage fnCreateEntryUrl).title = str "create_entry(...)" ∧
    (parseRustDoc fqnOnlyPage fnCreateEntryUrl).content =
      str "Function signature: pub fn create_entry(...) No additional documentation available." ∧
    isPrefixL (str "Function signature: pub fn create_entry(...)")
      (parseRustDoc fqnOnlyPage fnCreateEntryUrl).content = true :=
  ⟨by decide, by decide, by decide⟩

-- ==== Concept resolver lemmas ====

theorem find?_first_index {α : Type} (p : α → Bool) (l : List α) (a : α)
    (h : List.find? p l = some a) :
    ∃ i, ∃ hi : i < l.length, l.get ⟨i, hi⟩ = a ∧ p a = true ∧
      ∀ j (hj : j < l.length), j < i → p (l.get ⟨j, hj⟩) = false := by
  induction l with
  | nil => cases h
  | cons x xs ih =>
    by_cases hx : p x = true
    · rw [List.find?_cons_of_pos _ hx] at h
      have hxa : x = a := by
        cases h
        rfl
      subst hxa
      exact ⟨0, by simp, rfl, hx, fun j hj hj0 => absurd hj0 (Nat.not_lt_zero j)⟩
    · have hxf : p x = false := Bool.eq_false_iff.mpr hx
      rw [List.find?_cons_of_neg _ hx] at h
      obtain ⟨i, hi, hget, hpa, hearlier⟩ := ih h
      refine ⟨i + 1, by simpa using Nat.succ_lt_succ hi, by simpa using hget, hpa, ?_⟩
      intro j hj hjlt
      cases j with
      | zero => simpa using hxf
      | succ j' =>
        have hj' : j' < xs.length := by
          simp only [List.length_cons] at hj
          omega
        have := hearlier j' hj' (by omega)
        simpa using this

theorem conceptKeyMatches_iff (normalized key : List Char) :
    conceptKeyMatches normalized key = true ↔
      SubStr key normalized ∨ SubStr normalized key := by
  simp [conceptKeyMatches, Bool.or_eq_true, containsSub_iff]

/-- C8: concept resolution lowercases the phrase and selects the first table
entry (in table order) satisfying the bidirectional containment — the key is
a substring of the lowercased phrase or contains it; when no entry matches it
fails with the `NotFoundError` message, and on a match it hands the mapped
path's url (prefixed with the developer base url) to the page fetch. -/
theorem concept_resolution_first_match (concept : List Char) :
    ((∀ e ∈ conceptMappings,
        ¬ (SubStr e.1 (lowerStr concept) ∨ SubStr (lowerStr concept) e.1)) →
      getConceptDocs concept = .error ⟨str "Concept not found: " ++ concept⟩) ∧
    (∀ e ∈ conceptMappings,
      (SubStr e.1 (lowerStr concept) ∨ SubStr (lowerStr concept) e.1) →
      ∃ i, ∃ hi : i < conceptMappings.length,
        (SubStr (conceptMappings.get ⟨i, hi⟩).1 (lowerStr concept) ∨
          SubStr (lowerStr concept) (conceptMappings.get ⟨i, hi⟩).1) ∧
        (∀ j (hj : j < conceptMappings.length), j < i →
          ¬ (SubStr (conceptMappings.get ⟨j, hj⟩).1 (lowerStr concept) ∨
             SubStr (lowerStr concept) (conceptMappings.get ⟨j, hj⟩).1)) ∧
        getConceptDocs concept =
          .ok (developerBaseUrl ++ (conceptMappings.get ⟨i, hi⟩).2)) := by
  constructor
  · intro hall
    have hfind :
        conceptMappings.find? (fun e => conceptKeyMatches (lowerStr concept) e.1) =
          none :=
      List.find?_eq_none.mpr (fun e he => by
        intro hc
        exact hall e he ((conceptKeyMatches_iff _ _).mp hc))
    simp only [getConceptDocs, hfind]
  · intro e he hmatch
    have hsome :
        (conceptMappings.find?
          (fun e => conceptKeyMatches (lowerStr concept) e.1)).isSome :=
      List.find?_isSome.mpr ⟨e, he, (conceptKeyMatches_iff _ _).mpr hmatch⟩
    rcases hfound : conceptMappings.find?
        (fun e => conceptKeyMatches (lowerStr concept) e.1) with _ | e0
    · rw [hfound] at hsome
      cases hsome
    · obtain ⟨i, hi, hget, hpa, hearlier⟩ := find?_first_index _ _ _ hfound
      refine ⟨i, hi, ?_, ?_, ?_⟩
      · rw [hget]
        exact (conceptKeyMatches_iff _ _).mp hpa
      · intro j hj hjlt hcon
        have := hearlier j hj hjlt
        rw [(conceptKeyMatches_iff _ _).mpr hcon] at this
        cases this
      · simp only [getConceptDocs, hfound, hget]

theorem concept_resolution_first_match_witness :
    ∃ i, ∃ hi : i < conceptMappings.length,
      getConceptDocs (str "Understanding the DHT") =
        .ok (developerBaseUrl ++ (conceptMappings.get ⟨i, hi⟩).2) := by
  obtain ⟨i, hi, _, _, heq⟩ :=
    (concept_resolution_first_match (str "Understanding the DHT")).2
      (str "dht", str "/concepts/4_dht") (by decide)
      (Or.inl ((containsSub_iff _ _).mp (by decide)))
  exact ⟨i, hi, heq⟩

theorem hdk_index_nonempty_on_success_witness :
    discoverHDKFunctions (some []) [] ≠ [] ∧
    ∃ f ∈ discoverHDKFunctions (some []) [], f.name = str "create_entry" :=
  hdk_index_nonempty_on_success [] []

theorem hdk_index_dedup_by_name_witness :
    ((parseHdkIndexL [⟨str "a/fn.get.html", str "get"⟩] hdkBaseUrl).map
      (fun f => f.name)).Nodup :=
  hdk_index_dedup_by_name.1 [⟨str "a/fn.get.html", str "get"⟩] hdkBaseUrl

end HolochainMcp
